import Mathlib

/- Verification of the redline-generation core of the NDA review analyzer
   (RedlineView component and the analysis data model): change derivation
   from clause findings, descending sort by list position, case-insensitive
   escaped-literal global text replacement, the annotated redline artifact,
   the clean amended artifact, the tag-stripping export transform used for
   clipboard copy and file download, and the summary tally of change counts.
   Documents are modelled as lists of characters. -/

/-- Canonicalized character comparison embedding the regex `i` flag
    (ASCII case folding via `Char.toLower`). -/
def lowEq (a b : Char) : Bool := a.toLower == b.toLower

/-- Case-insensitive test that `pat` is an initial segment of `t`. -/
def ciStarts : List Char → List Char → Bool
  | [], _ => true
  | _ :: _, [] => false
  | a :: xs, b :: ys => lowEq a b && ciStarts xs ys

/-- Case-insensitive substring occurrence test. -/
def containsCI (pat : List Char) : List Char → Bool
  | [] => ciStarts pat []
  | c :: rest => ciStarts pat (c :: rest) || containsCI pat rest

/-- Verbatim (case-sensitive) substring occurrence test. -/
def containsSub (pat : List Char) : List Char → Bool
  | [] => pat.isEmpty
  | c :: rest => pat.isPrefixOf (c :: rest) || containsSub pat rest

/-- Number of verbatim occurrences of `pat` (at every start position). -/
def countOcc (pat : List Char) : List Char → Nat
  | [] => if pat.isEmpty then 1 else 0
  | c :: rest => (if pat.isPrefixOf (c :: rest) then 1 else 0) + countOcc pat rest

/-- No case-insensitive match of `pat` begins at a position inside `p`
    when the text continues with `t` after `p`. -/
def noStartIn (pat : List Char) : List Char → List Char → Bool
  | [], _ => true
  | c :: p, t => !(ciStarts pat (c :: (p ++ t))) && noStartIn pat p t

/-- `recommendedAction` field of a clause finding (ndaAnalysis.ts). -/
inductive RecommendedAction
  | Remove
  | Amend
  | Add
  deriving DecidableEq

/-- `riskLevel` field of a clause finding (ndaAnalysis.ts). -/
inductive RiskLevel
  | High
  | Medium
  | Low
  deriving DecidableEq

/-- The `ClauseAnalysis` record of ndaAnalysis.ts (a Finding). -/
structure ClauseAnalysis where
  id : List Char
  name : List Char
  issue : List Char
  currentLanguage : List Char
  recommendedAction : RecommendedAction
  suggestedLanguage : List Char
  whyItMatters : List Char
  riskLevel : RiskLevel
  deriving DecidableEq

/-- The `type` field of a `RedlineChange` (RedlineView). -/
inductive ChangeType
  | addition
  | deletion
  | replacement
  deriving DecidableEq

/-- The `RedlineChange` record of RedlineView.  `originalText` and
    `newText` are optional fields; `position` is the finding's index. -/
structure RedlineChange where
  type : ChangeType
  originalText : Option (List Char)
  newText : Option (List Char)
  clauseName : List Char
  position : Nat
  reason : List Char
  deriving DecidableEq

/-- JavaScript truthiness of an optional string field: defined and
    non-empty. -/
def truthy : Option (List Char) → Bool
  | some (_ :: _) => true
  | _ => false

/-- Value of an optional string field, defaulting to the empty string. -/
def optVal : Option (List Char) → List Char
  | some s => s
  | none => []

/-- One `changes.push` of `generateRedlineChanges` for the clause at the
    given list index: deletion for Remove, replacement for Amend,
    addition for Add. -/
def changeOfClause (index : Nat) (clause : ClauseAnalysis) : RedlineChange :=
  match clause.recommendedAction with
  | RecommendedAction.Remove =>
      ⟨ChangeType.deletion, some clause.currentLanguage, none,
        clause.name, index, clause.issue⟩
  | RecommendedAction.Amend =>
      ⟨ChangeType.replacement, some clause.currentLanguage,
        some clause.suggestedLanguage, clause.name, index, clause.issue⟩
  | RecommendedAction.Add =>
      ⟨ChangeType.addition, none, some clause.suggestedLanguage,
        clause.name, index, clause.issue⟩

/-- `generateRedlineChanges` of RedlineView: one change per clause of the
    analysis result, in input order, `position` = index in the list. -/
def generateRedlineChanges (clauses : List ClauseAnalysis) : List RedlineChange :=
  (List.enum clauses).map (fun p => changeOfClause p.1 p.2)

/-- `changes.sort((a, b) => b.position - a.position)`: stable sort by
    `position`, descending. -/
def sortChangesDesc (l : List RedlineChange) : List RedlineChange :=
  List.insertionSort (fun a b => b.position ≤ a.position) l

/-- ECMAScript `GetSubstitution` for a replacement string with no capture
    groups: interprets the two-character escapes dollar-dollar,
    dollar-ampersand (matched text), dollar-backquote (text before the
    match) and dollar-quote (text after the match); every other character,
    including a dollar in any other context, is copied verbatim. -/
def getSub (m b a : List Char) : List Char → List Char
  | [] => []
  | [c] => [c]
  | c :: d :: rest =>
    if c = '$' then
      if d = '$' then '$' :: getSub m b a rest
      else if d = '&' then m ++ getSub m b a rest
      else if d = Char.ofNat 96 then b ++ getSub m b a rest
      else if d = Char.ofNat 39 then a ++ getSub m b a rest
      else c :: getSub m b a (d :: rest)
    else c :: getSub m b a (d :: rest)

/-- Replacement string free of ECMAScript substitution escapes: no dollar
    immediately followed by dollar, ampersand, backquote or quote. -/
def noSubstSeq : List Char → Bool
  | [] => true
  | c :: rest =>
    if c = '$' then
      match rest with
      | [] => true
      | d :: _ =>
        !(d = '$' || d = '&' || d = Char.ofNat 96 || d = Char.ofNat 39)
          && noSubstSeq rest
    else noSubstSeq rest

/-- Fuelled scan of `text.replace(regex, fn)` for the global
    case-insensitive literal pattern `pat` built by
    `new RegExp(escapeRegExp(pat), 'gi')`, with a function replacement:
    at each match the function's value is inserted verbatim and scanning
    resumes after the match.  The fuel is the text length (one unit per
    consumed character suffices). -/
def replaceF (pat : List Char) (f : List Char → List Char) : Nat → List Char → List Char
  | _, [] => []
  | 0, t => t
  | fuel + 1, c :: rest =>
    if !pat.isEmpty && ciStarts pat (c :: rest) then
      f ((c :: rest).take pat.length)
        ++ replaceF pat f fuel ((c :: rest).drop pat.length)
    else c :: replaceF pat f fuel rest

/-- `text.replace(new RegExp(escapeRegExp(pat), 'gi'), fn)`. -/
def replaceAllF (pat : List Char) (f : List Char → List Char) (t : List Char) : List Char :=
  replaceF pat f t.length t

/-- Fuelled scan of `text.replace(regex, repl)` with a replacement
    string: at each match, ECMAScript `GetSubstitution` is applied to
    `repl` with the matched text, the already-scanned part of the subject
    (`pre`) and the remainder. -/
def replaceStr (pat rep : List Char) : Nat → List Char → List Char → List Char
  | _, _, [] => []
  | 0, _, t => t
  | fuel + 1, pre, c :: rest =>
    if !pat.isEmpty && ciStarts pat (c :: rest) then
      getSub ((c :: rest).take pat.length) pre ((c :: rest).drop pat.length) rep
        ++ replaceStr pat rep fuel (pre ++ (c :: rest).take pat.length)
            ((c :: rest).drop pat.length)
    else c :: replaceStr pat rep fuel (pre ++ [c]) rest

/-- `replaceStr` starting with scanned prefix `pre`. -/
def replaceStrFrom (pat rep pre t : List Char) : List Char :=
  replaceStr pat rep t.length pre t

/-- `text.replace(new RegExp(escapeRegExp(pat), 'gi'), rep)` for a
    replacement string `rep`. -/
def replaceAllStr (pat rep t : List Char) : List Char :=
  replaceStrFrom pat rep [] t

/-- Inline style of the deletion span (RedlineView line 79/85). -/
def delStyle : List Char :=
  "background-color: #fee2e2; color: #dc2626; text-decoration: line-through; padding: 2px 4px; border-radius: 3px; border: 1px solid #fecaca;".data

/-- Inline style of the insertion span (RedlineView line 85/89). -/
def insStyle : List Char :=
  "background-color: #dbeafe; color: #2563eb; text-decoration: underline; padding: 2px 4px; border-radius: 3px; border: 1px solid #bfdbfe;".data

/-- Opening span tag with the given style and title attribute. -/
def spanOpen (style title : List Char) : List Char :=
  "<span style=\"".data ++ style ++ "\" title=\"".data ++ title ++ "\">".data

/-- Closing span tag. -/
def spanClose : List Char := "</span>".data

/-- A complete annotation marker wrapping `content`. -/
def mkMarker (style title content : List Char) : List Char :=
  spanOpen style title ++ content ++ spanClose

/-- One iteration of the `changes.forEach` of `generateRedlinedDocument`:
    deletion wraps every match in a deletion marker; replacement wraps
    the match in a deletion marker followed by a space and an insertion
    marker around the new text; addition appends two newlines and an
    insertion marker around the new text. -/
def applyRedlineChange (w : List Char) (change : RedlineChange) : List Char :=
  if change.type = ChangeType.deletion ∧ truthy change.originalText = true then
    replaceAllF (optVal change.originalText)
      (fun m => mkMarker delStyle change.reason m) w
  else if change.type = ChangeType.replacement ∧ truthy change.originalText = true
      ∧ truthy change.newText = true then
    replaceAllF (optVal change.originalText)
      (fun m =>
        mkMarker delStyle ("Original: ".data ++ change.reason) m
          ++ " ".data
          ++ mkMarker insStyle ("Replacement: ".data ++ change.reason)
              (optVal change.newText)) w
  else if change.type = ChangeType.addition ∧ truthy change.newText = true then
    w ++ "\n\n".data
      ++ mkMarker insStyle ("Addition: ".data ++ change.reason)
          (optVal change.newText)
  else w

/-- One iteration of the `changes.forEach` of `generateCleanDocument`:
    deletion replaces every match with the empty string; replacement
    replaces every match with the new text (a replacement string, hence
    subject to `GetSubstitution`); addition appends two newlines and the
    new text. -/
def applyCleanChange (w : List Char) (change : RedlineChange) : List Char :=
  if change.type = ChangeType.deletion ∧ truthy change.originalText = true then
    replaceAllStr (optVal change.originalText) [] w
  else if change.type = ChangeType.replacement ∧ truthy change.originalText = true
      ∧ truthy change.newText = true then
    replaceAllStr (optVal change.originalText) (optVal change.newText) w
  else if change.type = ChangeType.addition ∧ truthy change.newText = true then
    w ++ "\n\n".data ++ optVal change.newText
  else w

/-- `generateRedlinedDocument` of RedlineView: derive the changes, sort
    them by position descending, and apply each in turn to the working
    text starting from the original document. -/
def generateRedlinedDocument (originalText : List Char) (clauses : List ClauseAnalysis) : List Char :=
  List.foldl applyRedlineChange originalText
    (sortChangesDesc (generateRedlineChanges clauses))

/-- `generateCleanDocument` of RedlineView: same pipeline with the plain
    replacements. -/
def generateCleanDocument (originalText : List Char) (clauses : List ClauseAnalysis) : List Char :=
  List.foldl applyCleanChange originalText
    (sortChangesDesc (generateRedlineChanges clauses))

/-- Remainder of the list after the first greater-than character, if any. -/
def findGt : List Char → Option (List Char)
  | [] => none
  | c :: rest => if c = '>' then some rest else findGt rest

/-- Fuelled scan of `text.replace(/<[^>]*>/g, '')`: at a less-than
    character, the shortest run up to the next greater-than character is
    removed (the regex match); a less-than with no closing greater-than
    is kept and scanning moves on. -/
def stripT : Nat → List Char → List Char
  | _, [] => []
  | 0, t => t
  | fuel + 1, c :: rest =>
    if c = '<' then
      match findGt rest with
      | some rest2 => stripT fuel rest2
      | none => c :: stripT fuel rest
    else c :: stripT fuel rest

/-- `text.replace(/<[^>]*>/g, '')`, the annotation-stripping transform. -/
def stripTags (t : List Char) : List Char :=
  stripT t.length t

/-- Text written to the clipboard by `copyToClipboard`. -/
def clipboardText (text : List Char) : List Char :=
  stripTags text

/-- Content of the file produced by `downloadDocument`. -/
def downloadContent (content : List Char) : List Char :=
  stripTags content

/-- The character class of `escapeRegExp` (RedlineView line 123):
    dot, star, plus, question mark, caret, dollar, both braces, both
    parentheses, pipe, both square brackets and backslash. -/
def escapedSet (c : Char) : Bool :=
  c = '.' || c = '*' || c = '+' || c = '?' || c = '^' || c = '$'
    || c = Char.ofNat 123 || c = Char.ofNat 125 || c = '(' || c = ')'
    || c = '|' || c = '[' || c = ']' || c = '\\'

/-- `escapeRegExp`: prepend a backslash to every character of the class
    above. -/
def escapeRegExp : List Char → List Char
  | [] => []
  | c :: rest =>
    (if escapedSet c then ['\\', c] else [c]) ++ escapeRegExp rest

/-- ECMAScript SyntaxCharacter: exactly the characters carrying pattern
    meaning in a regular expression source. -/
def regexSyntaxChar (c : Char) : Bool :=
  c = '.' || c = '*' || c = '+' || c = '?' || c = '^' || c = '$'
    || c = Char.ofNat 123 || c = Char.ofNat 125 || c = '(' || c = ')'
    || c = '|' || c = '[' || c = ']' || c = '\\'

/-- Token of a regular expression source: a literal character (escaped,
    or unescaped and not a SyntaxCharacter) or an unescaped
    SyntaxCharacter retaining pattern meaning. -/
inductive RTok
  | lit (c : Char)
  | meta (c : Char)
  deriving DecidableEq

/-- Classify the characters of a pattern produced by `escapeRegExp`:
    a backslash makes the next character a literal; an unescaped
    SyntaxCharacter keeps pattern meaning. -/
def parseRegex : List Char → List RTok
  | [] => []
  | c :: rest =>
    if c = '\\' then
      match rest with
      | [] => []
      | d :: rest2 => RTok.lit d :: parseRegex rest2
    else
      (if regexSyntaxChar c then RTok.meta c else RTok.lit c) :: parseRegex rest

/-- Deletions counter of the Summary of Changes panel. -/
def summaryDeletions (clauses : List ClauseAnalysis) : Nat :=
  ((generateRedlineChanges clauses).filter
    (fun c => decide (c.type = ChangeType.deletion))).length

/-- Additions counter of the Summary of Changes panel. -/
def summaryAdditions (clauses : List ClauseAnalysis) : Nat :=
  ((generateRedlineChanges clauses).filter
    (fun c => decide (c.type = ChangeType.addition))).length

/-- Replacements counter of the Summary of Changes panel. -/
def summaryReplacements (clauses : List ClauseAnalysis) : Nat :=
  ((generateRedlineChanges clauses).filter
    (fun c => decide (c.type = ChangeType.replacement))).length

/-- Change type assigned to each recommended action by the deriver. -/
def actionType : RecommendedAction → ChangeType
  | RecommendedAction.Remove => ChangeType.deletion
  | RecommendedAction.Amend => ChangeType.replacement
  | RecommendedAction.Add => ChangeType.addition

/- Helper lemmas: fuel irrelevance and step equations for the fuelled
   scans, so later proofs can reason about the wrapper functions. -/

theorem patLen_of_cond {pat : List Char} {c : Char} {r : List Char}
    (hb : (!pat.isEmpty && ciStarts pat (c :: r)) = true) : 1 ≤ pat.length := by
  cases pat with
  | nil => simp at hb
  | cons a as => simp

theorem isEmpty_false_of_ne {pat : List Char} (h : pat ≠ []) : pat.isEmpty = false := by
  cases pat with
  | nil => exact absurd rfl h
  | cons a as => rfl

theorem truthy_some {x : List Char} (h : x ≠ []) : truthy (some x) = true := by
  cases x with
  | nil => exact absurd rfl h
  | cons a as => rfl

theorem replaceF_fuel (pat : List Char) (f : List Char → List Char) :
    ∀ (n m : Nat) (t : List Char), t.length ≤ n → t.length ≤ m →
      replaceF pat f n t = replaceF pat f m t := by
  intro n
  induction n with
  | zero =>
    intro m t hn _
    cases t with
    | nil => cases m <;> rfl
    | cons c r => simp at hn
  | succ n ih =>
    intro m t hn hm
    cases t with
    | nil => cases m <;> rfl
    | cons c r =>
      cases m with
      | zero => simp at hm
      | succ m =>
        simp only [List.length_cons] at hn hm
        simp only [replaceF]
        split
        next hb =>
          have hp := patLen_of_cond hb
          have h1 : ((c :: r).drop pat.length).length ≤ n := by
            simp [List.length_drop]; omega
          have h2 : ((c :: r).drop pat.length).length ≤ m := by
            simp [List.length_drop]; omega
          rw [ih m _ h1 h2]
        next hb =>
          rw [ih m r (by omega) (by omega)]

theorem replaceAllF_cons_neg {pat : List Char} {c : Char} {r : List Char}
    (f : List Char → List Char)
    (h : (!pat.isEmpty && ciStarts pat (c :: r)) = false) :
    replaceAllF pat f (c :: r) = c :: replaceAllF pat f r := by
  show replaceF pat f (c :: r).length (c :: r) = _
  simp only [List.length_cons, replaceF, h, Bool.false_eq_true, if_false]
  rfl

theorem replaceAllF_cons_pos {pat : List Char} {c : Char} {r : List Char}
    (f : List Char → List Char)
    (h : (!pat.isEmpty && ciStarts pat (c :: r)) = true) :
    replaceAllF pat f (c :: r)
      = f ((c :: r).take pat.length)
          ++ replaceAllF pat f ((c :: r).drop pat.length) := by
  show replaceF pat f (c :: r).length (c :: r) = _
  simp only [List.length_cons, replaceF, h, if_true]
  congr 1
  apply replaceF_fuel
  · have hp := patLen_of_cond h
    simp [List.length_drop]
    omega
  · exact Nat.le_refl _

theorem replaceStr_fuel (pat rep : List Char) :
    ∀ (n m : Nat) (pre t : List Char), t.length ≤ n → t.length ≤ m →
      replaceStr pat rep n pre t = replaceStr pat rep m pre t := by
  intro n
  induction n with
  | zero =>
    intro m pre t hn _
    cases t with
    | nil => cases m <;> rfl
    | cons c r => simp at hn
  | succ n ih =>
    intro m pre t hn hm
    cases t with
    | nil => cases m <;> rfl
    | cons c r =>
      cases m with
      | zero => simp at hm
      | succ m =>
        simp only [List.length_cons] at hn hm
        simp only [replaceStr]
        split
        next hb =>
          have hp := patLen_of_cond hb
          have h1 : ((c :: r).drop pat.length).length ≤ n := by
            simp [List.length_drop]; omega
          have h2 : ((c :: r).drop pat.length).length ≤ m := by
            simp [List.length_drop]; omega
          rw [ih m _ _ h1 h2]
        next hb =>
          rw [ih m _ r (by omega) (by omega)]

theorem replaceStrFrom_cons_neg {pat rep : List Char} {c : Char} {r : List Char}
    (pre : List Char)
    (h : (!pat.isEmpty && ciStarts pat (c :: r)) = false) :
    replaceStrFrom pat rep pre (c :: r)
      = c :: replaceStrFrom pat rep (pre ++ [c]) r := by
  show replaceStr pat rep (c :: r).length pre (c :: r) = _
  simp only [List.length_cons, replaceStr, h, Bool.false_eq_true, if_false]
  rfl

theorem replaceStrFrom_cons_pos {pat rep : List Char} {c : Char} {r : List Char}
    (pre : List Char)
    (h : (!pat.isEmpty && ciStarts pat (c :: r)) = true) :
    replaceStrFrom pat rep pre (c :: r)
      = getSub ((c :: r).take pat.length) pre ((c :: r).drop pat.length) rep
        ++ replaceStrFrom pat rep (pre ++ (c :: r).take pat.length)
            ((c :: r).drop pat.length) := by
  show replaceStr pat rep (c :: r).length pre (c :: r) = _
  simp only [List.length_cons, replaceStr, h, if_true]
  congr 1
  apply replaceStr_fuel
  · have hp := patLen_of_cond h
    simp [List.length_drop]
    omega
  · exact Nat.le_refl _

theorem findGt_some_length : ∀ {l r : List Char}, findGt l = some r → r.length < l.length := by
  intro l
  induction l with
  | nil => intro r h; simp [findGt] at h
  | cons c cs ih =>
    intro r h
    simp only [findGt] at h
    split at h
    · cases h
      simp
    · have := ih h
      simp
      omega

theorem stripT_fuel :
    ∀ (n m : Nat) (t : List Char), t.length ≤ n → t.length ≤ m →
      stripT n t = stripT m t := by
  intro n
  induction n with
  | zero =>
    intro m t hn _
    cases t with
    | nil => cases m <;> rfl
    | cons c r => simp at hn
  | succ n ih =>
    intro m t hn hm
    cases t with
    | nil => cases m <;> rfl
    | cons c r =>
      cases m with
      | zero => simp at hm
      | succ m =>
        simp only [List.length_cons] at hn hm
        simp only [stripT]
        split
        · split
          next r2 hfind =>
            have := findGt_some_length hfind
            exact ih m r2 (by omega) (by omega)
          next hfind =>
            rw [ih m r (by omega) (by omega)]
        · rw [ih m r (by omega) (by omega)]

theorem stripTags_cons_ne {c : Char} (hc : c ≠ '<') (r : List Char) :
    stripTags (c :: r) = c :: stripTags r := by
  show stripT (c :: r).length (c :: r) = _
  simp only [List.length_cons, stripT, if_neg hc]
  rfl

theorem stripTags_lt_some {r r2 : List Char} (h : findGt r = some r2) :
    stripTags ('<' :: r) = stripTags r2 := by
  show stripT ('<' :: r).length ('<' :: r) = _
  simp only [List.length_cons, stripT, if_pos rfl, h]
  exact stripT_fuel _ _ r2 (Nat.le_of_lt (findGt_some_length h)) (Nat.le_refl _)

theorem stripTags_lt_none {r : List Char} (h : findGt r = none) :
    stripTags ('<' :: r) = '<' :: stripTags r := by
  show stripT ('<' :: r).length ('<' :: r) = _
  simp only [List.length_cons, stripT, if_pos rfl, h]
  rfl

/- Lemmas about case-insensitive matching. -/

theorem ciStarts_self : ∀ (x : List Char), ciStarts x x = true := by
  intro x
  induction x with
  | nil => rfl
  | cons a xs ih => simp [ciStarts, lowEq, ih]

theorem ciStarts_append_right {pat t : List Char} (s : List Char)
    (h : ciStarts pat t = true) : ciStarts pat (t ++ s) = true := by
  induction pat generalizing t with
  | nil => rfl
  | cons a xs ih =>
    cases t with
    | nil => simp [ciStarts] at h
    | cons b ys =>
      simp only [ciStarts, Bool.and_eq_true] at h
      simp only [List.cons_append, ciStarts, Bool.and_eq_true]
      exact ⟨h.1, ih h.2⟩

theorem isPrefixOf_imp_ciStarts : ∀ {pat t : List Char},
    pat.isPrefixOf t = true → ciStarts pat t = true := by
  intro pat
  induction pat with
  | nil => intro t _; rfl
  | cons a xs ih =>
    intro t h
    cases t with
    | nil => simp [List.isPrefixOf] at h
    | cons b ys =>
      simp only [List.isPrefixOf, Bool.and_eq_true] at h
      have hab : a = b := by simpa using h.1
      simp [ciStarts, lowEq, hab, ih h.2]

theorem containsSub_imp_containsCI : ∀ {pat t : List Char},
    containsSub pat t = true → containsCI pat t = true := by
  intro pat t
  induction t with
  | nil =>
    intro h
    simp only [containsSub] at h
    have : pat = [] := by
      cases pat with
      | nil => rfl
      | cons a as => simp [List.isEmpty] at h
    subst this
    rfl
  | cons c rest ih =>
    intro h
    simp only [containsSub, Bool.or_eq_true] at h
    simp only [containsCI, Bool.or_eq_true]
    cases h with
    | inl h => exact Or.inl (isPrefixOf_imp_ciStarts h)
    | inr h => exact Or.inr (ih h)

/- Scan lemmas for the replacement functions. -/

theorem replaceAllF_nomatch {pat : List Char} (f : List Char → List Char) :
    ∀ {t : List Char}, containsCI pat t = false → replaceAllF pat f t = t := by
  intro t
  induction t with
  | nil => intro _; rfl
  | cons c r ih =>
    intro h
    have h' : ciStarts pat (c :: r) = false ∧ containsCI pat r = false := by
      simpa [containsCI] using h
    rw [replaceAllF_cons_neg f (by simp [h'.1]), ih h'.2]

theorem replaceStrFrom_nomatch {pat rep : List Char} :
    ∀ {t : List Char} (pre : List Char),
      containsCI pat t = false → replaceStrFrom pat rep pre t = t := by
  intro t
  induction t with
  | nil => intro pre _; rfl
  | cons c r ih =>
    intro pre h
    have h' : ciStarts pat (c :: r) = false ∧ containsCI pat r = false := by
      simpa [containsCI] using h
    rw [replaceStrFrom_cons_neg pre (by simp [h'.1]), ih _ h'.2]

theorem replaceAllF_skip {pat : List Char} (f : List Char → List Char) :
    ∀ (p t : List Char), noStartIn pat p t = true →
      replaceAllF pat f (p ++ t) = p ++ replaceAllF pat f t := by
  intro p
  induction p with
  | nil => intro t _; rfl
  | cons c p ih =>
    intro t h
    simp only [noStartIn, Bool.and_eq_true, Bool.not_eq_true'] at h
    rw [List.cons_append, replaceAllF_cons_neg f (by simp [h.1]), ih t h.2,
      List.cons_append]

theorem replaceStrFrom_skip {pat rep : List Char} :
    ∀ (p : List Char) (pre t : List Char), noStartIn pat p t = true →
      replaceStrFrom pat rep pre (p ++ t)
        = p ++ replaceStrFrom pat rep (pre ++ p) t := by
  intro p
  induction p with
  | nil => intro pre t _; simp
  | cons c p ih =>
    intro pre t h
    simp only [noStartIn, Bool.and_eq_true, Bool.not_eq_true'] at h
    rw [List.cons_append, replaceStrFrom_cons_neg pre (by simp [h.1]),
      ih _ t h.2]
    simp

theorem replaceAllF_match {pat x : List Char} (f : List Char → List Char)
    (s : List Char) (hp : pat ≠ []) (hx : ciStarts pat x = true)
    (hlen : x.length = pat.length) :
    replaceAllF pat f (x ++ s) = f x ++ replaceAllF pat f s := by
  cases x with
  | nil =>
    have h1 : 0 < pat.length := List.length_pos.mpr hp
    simp at hlen
    omega
  | cons c r =>
    have hcond : (!pat.isEmpty && ciStarts pat (c :: (r ++ s))) = true := by
      have := ciStarts_append_right s hx
      simp only [List.cons_append] at this
      simp [isEmpty_false_of_ne hp, this]
    rw [List.cons_append, replaceAllF_cons_pos f hcond, ← List.cons_append,
      List.take_left' hlen, List.drop_left' hlen]

theorem replaceStrFrom_match {pat rep x : List Char} (pre s : List Char)
    (hp : pat ≠ []) (hx : ciStarts pat x = true)
    (hlen : x.length = pat.length) :
    replaceStrFrom pat rep pre (x ++ s)
      = getSub x pre s rep ++ replaceStrFrom pat rep (pre ++ x) s := by
  cases x with
  | nil =>
    have h1 : 0 < pat.length := List.length_pos.mpr hp
    simp at hlen
    omega
  | cons c r =>
    have hcond : (!pat.isEmpty && ciStarts pat (c :: (r ++ s))) = true := by
      have := ciStarts_append_right s hx
      simp only [List.cons_append] at this
      simp [isEmpty_false_of_ne hp, this]
    rw [List.cons_append, replaceStrFrom_cons_pos pre hcond, ← List.cons_append,
      List.take_left' hlen, List.drop_left' hlen]

theorem getSub_eq_self {y : List Char} (m b a : List Char)
    (h : noSubstSeq y = true) : getSub m b a y = y := by
  induction y with
  | nil => rfl
  | cons c rest ih =>
    cases rest with
    | nil =>
      rfl
    | cons d rest2 =>
      by_cases hc : c = '$'
      · subst hc
        have hn : noSubstSeq ('$' :: d :: rest2)
            = (!(decide (d = '$') || decide (d = '&') || decide (d = Char.ofNat 96)
                || decide (d = Char.ofNat 39)) && noSubstSeq (d :: rest2)) := rfl
        rw [hn, Bool.and_eq_true, Bool.not_eq_true'] at h
        obtain ⟨hor, hrest⟩ := h
        have hd1 : d ≠ '$' := by intro e; subst e; simp at hor
        have hd2 : d ≠ '&' := by intro e; subst e; simp at hor
        have hd3 : d ≠ Char.ofNat 96 := by intro e; subst e; simp at hor
        have hd4 : d ≠ Char.ofNat 39 := by intro e; subst e; simp at hor
        simp [getSub, hd1, hd2, hd3, hd4, ih hrest]
      · have hrest : noSubstSeq (d :: rest2) = true := by
          simpa [noSubstSeq, if_neg hc] using h
        simp [getSub, hc, ih hrest]

/- Structure lemmas for the tag-stripping transform. -/

theorem stripTags_append_no_lt : ∀ {a : List Char} (b : List Char),
    '<' ∉ a → stripTags (a ++ b) = a ++ stripTags b := by
  intro a
  induction a with
  | nil => intro b _; rfl
  | cons c a ih =>
    intro b h
    have hc : c ≠ '<' := by
      intro e
      exact h (by simp [e])
    have ha : '<' ∉ a := fun hm => h (List.mem_cons_of_mem c hm)
    rw [List.cons_append, stripTags_cons_ne hc, ih b ha, List.cons_append]

theorem findGt_append {body : List Char} (rest : List Char) (h : '>' ∉ body) :
    findGt (body ++ '>' :: rest) = some rest := by
  induction body with
  | nil => simp [findGt]
  | cons c b ih =>
    have hc : c ≠ '>' := by
      intro e
      exact h (by simp [e])
    have hb : '>' ∉ b := fun hm => h (List.mem_cons_of_mem c hm)
    simp [findGt, hc, ih hb]

theorem stripTags_tag {body : List Char} (rest : List Char) (h : '>' ∉ body) :
    stripTags ('<' :: (body ++ '>' :: rest)) = stripTags rest :=
  stripTags_lt_some (findGt_append rest h)

/-- Body of the opening span tag between the angle brackets. -/
def openBody (style title : List Char) : List Char :=
  "span style=\"".data ++ style ++ "\" title=\"".data ++ title ++ "\"".data

theorem spanOpen_append (style title z : List Char) :
    spanOpen style title ++ z = '<' :: (openBody style title ++ '>' :: z) := by
  have h1 : "<span style=\"".data = '<' :: "span style=\"".data := by decide
  have h2 : "\">".data = ['"', '>'] := by decide
  have h3 : "\"".data = ['"'] := by decide
  simp [spanOpen, openBody, h1, h2, h3, List.append_assoc]

theorem gt_not_mem_openBody {style title : List Char}
    (hs : '>' ∉ style) (ht : '>' ∉ title) : '>' ∉ openBody style title := by
  intro hmem
  simp only [openBody, List.mem_append] at hmem
  rcases hmem with ((((h | h) | h) | h) | h)
  · exact absurd h (by decide)
  · exact hs h
  · exact absurd h (by decide)
  · exact ht h
  · exact absurd h (by decide)

theorem stripTags_marker {style title content : List Char} (z : List Char)
    (hs : '>' ∉ style) (ht : '>' ∉ title) (hc : '<' ∉ content) :
    stripTags (mkMarker style title content ++ z) = content ++ stripTags z := by
  have hstep : mkMarker style title content ++ z
      = '<' :: (openBody style title ++ '>' :: (content ++ (spanClose ++ z))) := by
    rw [mkMarker, List.append_assoc, List.append_assoc, spanOpen_append]
  rw [hstep, stripTags_tag _ (gt_not_mem_openBody hs ht),
    stripTags_append_no_lt _ hc]
  have hclose : spanClose ++ z = '<' :: ("/span".data ++ '>' :: z) := by
    have : spanClose = '<' :: ("/span".data ++ ['>']) := by decide
    simp [this, List.append_assoc]
  rw [hclose, stripTags_tag _ (by decide)]

/- Interaction of stripping with the function-replacement scan. -/

theorem stripTags_replaceAllF_aux {pat : List Char} (wrap g : List Char → List Char)
    (hw : ∀ m z, '<' ∉ m → stripTags (wrap m ++ z) = g m ++ stripTags z) :
    ∀ (n : Nat) (t : List Char), t.length ≤ n → '<' ∉ t →
      stripTags (replaceAllF pat wrap t) = replaceAllF pat g t := by
  intro n
  induction n with
  | zero =>
    intro t h _
    cases t with
    | nil => rfl
    | cons c r => simp at h
  | succ n ih =>
    intro t hlen hmem
    cases t with
    | nil => rfl
    | cons c r =>
      simp only [List.length_cons] at hlen
      have hr : '<' ∉ r := fun hm => hmem (List.mem_cons_of_mem c hm)
      cases hb : (!pat.isEmpty && ciStarts pat (c :: r)) with
      | false =>
        have hc : c ≠ '<' := by
          intro e
          exact hmem (by simp [e])
        rw [replaceAllF_cons_neg wrap hb, replaceAllF_cons_neg g hb,
          stripTags_cons_ne hc, ih r (by omega) hr]
      | true =>
        have hmtake : '<' ∉ (c :: r).take pat.length :=
          fun hm => hmem (List.take_subset _ _ hm)
        have hmdrop : '<' ∉ (c :: r).drop pat.length :=
          fun hm => hmem (List.drop_subset _ _ hm)
        have hp1 := patLen_of_cond hb
        rw [replaceAllF_cons_pos wrap hb, replaceAllF_cons_pos g hb,
          hw _ _ hmtake]
        congr 1
        apply ih
        · simp [List.length_drop]
          omega
        · exact hmdrop

theorem stripTags_replaceAllF {pat : List Char} (wrap g : List Char → List Char)
    (t : List Char) (hmem : '<' ∉ t)
    (hw : ∀ m z, '<' ∉ m → stripTags (wrap m ++ z) = g m ++ stripTags z) :
    stripTags (replaceAllF pat wrap t) = replaceAllF pat g t :=
  stripTags_replaceAllF_aux wrap g hw t.length t (Nat.le_refl _) hmem

theorem replaceAllF_id {pat : List Char} :
    ∀ (n : Nat) (t : List Char), t.length ≤ n →
      replaceAllF pat (fun m => m) t = t := by
  intro n
  induction n with
  | zero =>
    intro t h
    cases t with
    | nil => rfl
    | cons c r => simp at h
  | succ n ih =>
    intro t hlen
    cases t with
    | nil => rfl
    | cons c r =>
      simp only [List.length_cons] at hlen
      cases hb : (!pat.isEmpty && ciStarts pat (c :: r)) with
      | false =>
        rw [replaceAllF_cons_neg _ hb, ih r (by omega)]
      | true =>
        have hp1 := patLen_of_cond hb
        rw [replaceAllF_cons_pos _ hb, ih _ (by simp [List.length_drop]; omega)]
        exact List.take_append_drop _ _

/- Unfolding lemmas for single-finding batches and the change deriver. -/

theorem generateRedlineChanges_single (f : ClauseAnalysis) :
    generateRedlineChanges [f] = [changeOfClause 0 f] := rfl

theorem generateCleanDocument_single (text : List Char) (f : ClauseAnalysis) :
    generateCleanDocument text [f] = applyCleanChange text (changeOfClause 0 f) := rfl

theorem generateRedlinedDocument_single (text : List Char) (f : ClauseAnalysis) :
    generateRedlinedDocument text [f] = applyRedlineChange text (changeOfClause 0 f) := rfl

theorem changeOfClause_position (i : Nat) (c : ClauseAnalysis) :
    (changeOfClause i c).position = i := by
  cases h : c.recommendedAction <;> simp [changeOfClause, h]

theorem changeOfClause_type (i : Nat) (c : ClauseAnalysis) :
    (changeOfClause i c).type = actionType c.recommendedAction := by
  cases h : c.recommendedAction <;> simp [changeOfClause, actionType, h]

theorem enumFrom_get? {α : Type} : ∀ (l : List α) (n i : Nat),
    (List.enumFrom n l).get? i = (l.get? i).map (fun a => (n + i, a)) := by
  intro l
  induction l with
  | nil => intro n i; simp [List.enumFrom]
  | cons c l ih =>
    intro n i
    cases i with
    | zero => simp [List.enumFrom]
    | succ i =>
      simp only [List.enumFrom, List.get?]
      rw [ih (n + 1) i]
      have harith : n + 1 + i = n + (i + 1) := by omega
      rw [harith]

theorem enumFrom_fst_pairwise {α : Type} : ∀ (l : List α) (n : Nat),
    List.Pairwise (fun p q : Nat × α => p.1 < q.1) (List.enumFrom n l) := by
  intro l
  induction l with
  | nil => intro n; simp [List.enumFrom]
  | cons c l ih =>
    intro n
    simp only [List.enumFrom, List.pairwise_cons]
    refine ⟨?_, ih (n + 1)⟩
    intro q hq
    obtain ⟨i, x⟩ := q
    have h1 := (List.mem_enumFrom hq).1
    simp only
    omega

theorem generateRedlineChanges_pairwise (clauses : List ClauseAnalysis) :
    List.Pairwise (fun x y : RedlineChange => x.position < y.position)
      (generateRedlineChanges clauses) := by
  have h0 : List.enum clauses = List.enumFrom 0 clauses := rfl
  unfold generateRedlineChanges
  rw [h0, List.pairwise_map]
  exact (enumFrom_fst_pairwise clauses 0).imp
    (by intro a b h; simpa [changeOfClause_position] using h)

theorem orderedInsert_eq_append (a : RedlineChange) :
    ∀ (m : List RedlineChange), (∀ b ∈ m, a.position < b.position) →
      List.orderedInsert (fun x y => y.position ≤ x.position) a m = m ++ [a] := by
  intro m
  induction m with
  | nil => intro _; rfl
  | cons b m ih =>
    intro h
    have hb : ¬(b.position ≤ a.position) := by
      have := h b (List.mem_cons_self b m)
      omega
    simp only [List.orderedInsert, if_neg hb]
    rw [ih (fun x hx => h x (List.mem_cons_of_mem b hx))]
    simp

theorem sortChangesDesc_eq_reverse :
    ∀ (l : List RedlineChange),
      List.Pairwise (fun x y : RedlineChange => x.position < y.position) l →
      sortChangesDesc l = l.reverse := by
  intro l
  induction l with
  | nil => intro _; rfl
  | cons a l ih =>
    intro h
    rw [List.pairwise_cons] at h
    show List.insertionSort _ (a :: l) = _
    simp only [List.insertionSort]
    rw [show List.insertionSort (fun x y : RedlineChange => y.position ≤ x.position) l
        = sortChangesDesc l from rfl, ih h.2,
      orderedInsert_eq_append a _ (fun b hb => h.1 b (List.mem_reverse.mp hb))]
    simp

/- Counting lemmas for the summary tally. -/

theorem summary_count_aux (t : ChangeType) (a : RecommendedAction)
    (hta : ∀ x : RecommendedAction, actionType x = t ↔ x = a) :
    ∀ (clauses : List ClauseAnalysis) (n : Nat),
      (((List.enumFrom n clauses).map (fun p => changeOfClause p.1 p.2)).filter
          (fun c => decide (c.type = t))).length
        = (clauses.filter (fun c => decide (c.recommendedAction = a))).length := by
  intro clauses
  induction clauses with
  | nil => intro n; rfl
  | cons f fs ih =>
    intro n
    simp only [List.enumFrom, List.map_cons, List.filter_cons]
    have he : decide ((changeOfClause n f).type = t) = decide (f.recommendedAction = a) := by
      rw [changeOfClause_type]
      by_cases hx : f.recommendedAction = a
      · simp [hx, (hta a).mpr rfl]
      · have hne : actionType f.recommendedAction ≠ t := fun e => hx ((hta _).mp e)
        simp [hx, hne]
    rw [he]
    cases hq : decide (f.recommendedAction = a) with
    | false => simpa [hq] using ih (n + 1)
    | true => simpa [hq] using ih (n + 1)

theorem summary_count_eq (t : ChangeType) (a : RecommendedAction)
    (hta : ∀ x : RecommendedAction, actionType x = t ↔ x = a)
    (clauses : List ClauseAnalysis) :
    ((generateRedlineChanges clauses).filter (fun c => decide (c.type = t))).length
      = (clauses.filter (fun c => decide (c.recommendedAction = a))).length := by
  have h0 : List.enum clauses = List.enumFrom 0 clauses := rfl
  unfold generateRedlineChanges
  rw [h0]
  exact summary_count_aux t a hta clauses 0

theorem filter_length_perm {α : Type} (q : α → Bool) {l₁ l₂ : List α}
    (h : l₁.Perm l₂) : (l₁.filter q).length = (l₂.filter q).length := by
  rw [← List.countP_eq_length_filter, ← List.countP_eq_length_filter]
  exact h.countP_eq q

/- The escaped pattern contains only literal tokens. -/

theorem parseRegex_escapeRegExp : ∀ (s : List Char),
    parseRegex (escapeRegExp s) = s.map RTok.lit := by
  intro s
  induction s with
  | nil => rfl
  | cons c rest ih =>
    by_cases hc : escapedSet c = true
    · rw [escapeRegExp, if_pos hc]
      show parseRegex ('\\' :: c :: escapeRegExp rest) = _
      simp [parseRegex, ih]
    · have hc' : escapedSet c = false := by
        cases h2 : escapedSet c with
        | false => rfl
        | true => exact absurd h2 hc
      rw [escapeRegExp, if_neg hc]
      have hsyn : regexSyntaxChar c = false := hc'
      have hbk : c ≠ '\\' := by
        intro e
        rw [e] at hc'
        have hv : escapedSet '\\' = true := by decide
        rw [hv] at hc'
        exact Bool.noConfusion hc'
      show parseRegex (c :: escapeRegExp rest) = _
      cases hE : escapeRegExp rest with
      | nil =>
        rw [hE] at ih
        simp [parseRegex, hbk, hsyn, ← ih]
      | cons d E2 =>
        rw [hE] at ih
        simp [parseRegex, hbk, hsyn, ih]

/- Small auxiliary facts used by the claim theorems. -/

theorem containsCI_nil_pat : ∀ (t : List Char), containsCI [] t = true := by
  intro t
  cases t <;> simp [containsCI, ciStarts]

/-- Example batch: two Amend, one Remove, one Add finding. -/
def exampleClauses : List ClauseAnalysis :=
  [⟨"1".data, "A".data, "i1".data, "x1".data, RecommendedAction.Amend,
      "y1".data, "w".data, RiskLevel.High⟩,
    ⟨"2".data, "B".data, "i2".data, "x2".data, RecommendedAction.Amend,
      "y2".data, "w".data, RiskLevel.Medium⟩,
    ⟨"3".data, "C".data, "i3".data, "x3".data, RecommendedAction.Remove,
      "".data, "w".data, RiskLevel.Low⟩,
    ⟨"4".data, "D".data, "i4".data, "".data, RecommendedAction.Add,
      "y4".data, "w".data, RiskLevel.High⟩]

/-- C7: the Change Deriver emits exactly one Change per Finding, in the
    same relative order, with position equal to the finding's index,
    change type deletion for Remove, replacement for Amend, addition for
    Add, and originalText, newText, clauseName and reason copied from the
    finding's currentLanguage, suggestedLanguage, name and issue; no
    finding is dropped. -/
theorem c7_change_deriver_shape (fs : List ClauseAnalysis) :
    (generateRedlineChanges fs).length = fs.length
    ∧ (∀ i : Nat, (generateRedlineChanges fs).get? i
        = (fs.get? i).map (fun c => changeOfClause i c))
    ∧ (∀ (i : Nat) (c : ClauseAnalysis),
        (changeOfClause i c).position = i
        ∧ (changeOfClause i c).clauseName = c.name
        ∧ (changeOfClause i c).reason = c.issue
        ∧ (changeOfClause i c).type = actionType c.recommendedAction
        ∧ (changeOfClause i c).originalText
            = (match c.recommendedAction with
              | RecommendedAction.Remove => some c.currentLanguage
              | RecommendedAction.Amend => some c.currentLanguage
              | RecommendedAction.Add => none)
        ∧ (changeOfClause i c).newText
            = (match c.recommendedAction with
              | RecommendedAction.Remove => none
              | RecommendedAction.Amend => some c.suggestedLanguage
              | RecommendedAction.Add => some c.suggestedLanguage)) := by
  refine ⟨?_, ?_, ?_⟩
  · unfold generateRedlineChanges
    simp [List.enum_length]
  · intro i
    unfold generateRedlineChanges
    rw [List.get?_map]
    have h0 : List.enum fs = List.enumFrom 0 fs := rfl
    rw [h0, enumFrom_get? fs 0 i]
    cases hfs : fs.get? i with
    | none => rfl
    | some c => simp
  · intro i c
    cases h : c.recommendedAction <;> simp [changeOfClause, actionType, h]

/-- C8: before application the change list is sorted by position in
    strictly descending order — for index-derived changes this is exactly
    the reverse of the derivation order — and both renderers fold over
    that reversed list, so the change of a later-listed finding is applied
    to the working text before the change of an earlier-listed finding. -/
theorem c8_sort_descending (fs : List ClauseAnalysis) (text : List Char) :
    sortChangesDesc (generateRedlineChanges fs) = (generateRedlineChanges fs).reverse
    ∧ List.Pairwise (fun a b : RedlineChange => b.position < a.position)
        (sortChangesDesc (generateRedlineChanges fs))
    ∧ generateCleanDocument text fs
        = List.foldl applyCleanChange text ((generateRedlineChanges fs).reverse)
    ∧ generateRedlinedDocument text fs
        = List.foldl applyRedlineChange text ((generateRedlineChanges fs).reverse) := by
  have hrev := sortChangesDesc_eq_reverse _ (generateRedlineChanges_pairwise fs)
  refine ⟨hrev, ?_, ?_, ?_⟩
  · rw [hrev, List.pairwise_reverse]
    exact generateRedlineChanges_pairwise fs
  · unfold generateCleanDocument
    rw [hrev]
  · unfold generateRedlinedDocument
    rw [hrev]

/-- C6: the summary tally reports, per change type, exactly the number of
    findings with the corresponding action (deletions count Remove,
    additions count Add, replacements count Amend); the counts are
    invariant under permutation of the finding list; and the example
    batch of 2 Amend, 1 Remove, 1 Add yields deletions 1, additions 1,
    replacements 2. -/
theorem c6_summary_tally (fs gs : List ClauseAnalysis) (hperm : fs.Perm gs) :
    (summaryDeletions fs
        = (fs.filter (fun c => decide (c.recommendedAction = RecommendedAction.Remove))).length
      ∧ summaryAdditions fs
        = (fs.filter (fun c => decide (c.recommendedAction = RecommendedAction.Add))).length
      ∧ summaryReplacements fs
        = (fs.filter (fun c => decide (c.recommendedAction = RecommendedAction.Amend))).length)
    ∧ (summaryDeletions fs = summaryDeletions gs
      ∧ summaryAdditions fs = summaryAdditions gs
      ∧ summaryReplacements fs = summaryReplacements gs)
    ∧ (summaryDeletions exampleClauses = 1
      ∧ summaryAdditions exampleClauses = 1
      ∧ summaryReplacements exampleClauses = 2) := by
  have hdel : ∀ x : RecommendedAction,
      actionType x = ChangeType.deletion ↔ x = RecommendedAction.Remove := by
    intro x; cases x <;> simp [actionType]
  have hadd : ∀ x : RecommendedAction,
      actionType x = ChangeType.addition ↔ x = RecommendedAction.Add := by
    intro x; cases x <;> simp [actionType]
  have hrep : ∀ x : RecommendedAction,
      actionType x = ChangeType.replacement ↔ x = RecommendedAction.Amend := by
    intro x; cases x <;> simp [actionType]
  refine ⟨⟨summary_count_eq _ _ hdel fs, summary_count_eq _ _ hadd fs,
      summary_count_eq _ _ hrep fs⟩, ⟨?_, ?_, ?_⟩, by decide, by decide, by decide⟩
  · exact (summary_count_eq _ _ hdel fs).trans
      ((filter_length_perm _ hperm).trans (summary_count_eq _ _ hdel gs).symm)
  · exact (summary_count_eq _ _ hadd fs).trans
      ((filter_length_perm _ hperm).trans (summary_count_eq _ _ hadd gs).symm)
  · exact (summary_count_eq _ _ hrep fs).trans
      ((filter_length_perm _ hperm).trans (summary_count_eq _ _ hrep gs).symm)

theorem c6_summary_tally_witness :
    summaryDeletions exampleClauses = 1
    ∧ summaryAdditions exampleClauses = 1
    ∧ summaryReplacements exampleClauses = 2 :=
  (c6_summary_tally exampleClauses exampleClauses (List.Perm.refl _)).2.2

/-- C9: for any original text, a single Add finding with nonempty
    suggested text Y appends two newlines and Y to the clean artifact and
    two newlines and an insertion-marker-wrapped Y to the redline
    artifact; the whole original text is an unchanged prefix of both. -/
theorem c9_addition_appends (text idv nm iss cur sug why : List Char)
    (rl : RiskLevel) (hsug : sug ≠ []) :
    generateCleanDocument text
        [⟨idv, nm, iss, cur, RecommendedAction.Add, sug, why, rl⟩]
      = text ++ "\n\n".data ++ sug
    ∧ generateRedlinedDocument text
        [⟨idv, nm, iss, cur, RecommendedAction.Add, sug, why, rl⟩]
      = text ++ "\n\n".data ++ mkMarker insStyle ("Addition: ".data ++ iss) sug := by
  constructor
  · rw [generateCleanDocument_single]
    simp [changeOfClause, applyCleanChange, truthy_some hsug, optVal]
  · rw [generateRedlinedDocument_single]
    simp [changeOfClause, applyRedlineChange, truthy_some hsug, optVal]

theorem c9_addition_appends_witness :
    generateCleanDocument "Doc.".data
        [⟨"1".data, "n".data, "i".data, "".data, RecommendedAction.Add,
          "New clause".data, "w".data, RiskLevel.Low⟩]
      = "Doc.".data ++ "\n\n".data ++ "New clause".data
    ∧ generateRedlinedDocument "Doc.".data
        [⟨"1".data, "n".data, "i".data, "".data, RecommendedAction.Add,
          "New clause".data, "w".data, RiskLevel.Low⟩]
      = "Doc.".data ++ "\n\n".data
          ++ mkMarker insStyle ("Addition: ".data ++ "i".data) "New clause".data :=
  c9_addition_appends "Doc.".data "1".data "n".data "i".data "".data
    "New clause".data "w".data RiskLevel.Low (by decide)

/-- C5: for a single Remove or Amend finding whose current language does
    not occur case-insensitively anywhere in the working text, both the
    redline and the clean artifact are exactly the original text, and no
    error can arise: the generators are total functions, and missing or
    empty text fields merely make the change a no-op. -/
theorem c5_no_match_noop (text idv nm iss cur sug why : List Char)
    (rl : RiskLevel) (act : RecommendedAction)
    (hact : act ≠ RecommendedAction.Add)
    (hno : containsCI cur text = false) :
    generateCleanDocument text [⟨idv, nm, iss, cur, act, sug, why, rl⟩] = text
    ∧ generateRedlinedDocument text [⟨idv, nm, iss, cur, act, sug, why, rl⟩] = text := by
  have hcur : cur ≠ [] := by
    intro e
    subst e
    rw [containsCI_nil_pat text] at hno
    exact Bool.noConfusion hno
  obtain ⟨a, as, rfl⟩ : ∃ a as, cur = a :: as := by
    cases cur with
    | nil => exact absurd rfl hcur
    | cons a as => exact ⟨a, as, rfl⟩
  cases act with
  | Add => exact absurd rfl hact
  | Remove =>
    rw [generateCleanDocument_single, generateRedlinedDocument_single]
    constructor
    · simp only [changeOfClause]
      simp [applyCleanChange, truthy, optVal]
      exact replaceStrFrom_nomatch _ hno
    · simp only [changeOfClause]
      simp [applyRedlineChange, truthy, optVal]
      exact replaceAllF_nomatch _ hno
  | Amend =>
    rw [generateCleanDocument_single, generateRedlinedDocument_single]
    cases sug with
    | nil =>
      constructor
      · simp only [changeOfClause]
        simp [applyCleanChange, truthy]
      · simp only [changeOfClause]
        simp [applyRedlineChange, truthy]
    | cons b bs =>
      constructor
      · simp only [changeOfClause]
        simp [applyCleanChange, truthy, optVal]
        exact replaceStrFrom_nomatch _ hno
      · simp only [changeOfClause]
        simp [applyRedlineChange, truthy, optVal]
        exact replaceAllF_nomatch _ hno

theorem c5_no_match_noop_witness :
    generateCleanDocument "abc".data
        [⟨"1".data, "n".data, "i".data, "zz".data, RecommendedAction.Remove,
          "".data, "w".data, RiskLevel.Low⟩] = "abc".data
    ∧ generateRedlinedDocument "abc".data
        [⟨"1".data, "n".data, "i".data, "zz".data, RecommendedAction.Remove,
          "".data, "w".data, RiskLevel.Low⟩] = "abc".data :=
  c5_no_match_noop "abc".data "1".data "n".data "i".data "zz".data "".data
    "w".data RiskLevel.Low RecommendedAction.Remove (by decide) (by decide)

/-- C4: matching is an escaped literal search — every character of the
    pattern `escapeRegExp` builds is a literal token, so no regex
    metacharacter keeps pattern meaning; matching is case-insensitive
    ("confidential information" removes "Confidential Information"),
    global ("ab" removes both "ab" and "AB" in one pass), and a
    metacharacter such as the dot matches nothing but itself ("a.b" does
    not touch "axb"). -/
theorem c4_literal_escaped_matching :
    (∀ s : List Char, parseRegex (escapeRegExp s) = s.map RTok.lit)
    ∧ generateCleanDocument "Confidential Information".data
        [⟨"1".data, "n".data, "i".data, "confidential information".data,
          RecommendedAction.Remove, "".data, "w".data, RiskLevel.High⟩] = []
    ∧ generateCleanDocument "ab AB".data
        [⟨"1".data, "n".data, "i".data, "ab".data,
          RecommendedAction.Remove, "".data, "w".data, RiskLevel.High⟩] = " ".data
    ∧ generateCleanDocument "axb".data
        [⟨"1".data, "n".data, "i".data, "a.b".data,
          RecommendedAction.Remove, "".data, "w".data, RiskLevel.High⟩] = "axb".data :=
  ⟨parseRegex_escapeRegExp, by decide, by decide, by decide⟩

/-- C10: the clipboard-copy and file-download transforms strip every
    angle-bracket run from the exported text, whether it is an annotation
    marker or original document content, and they are applied to the clean
    artifact too: for an original text containing "(angle)Company
    Name(angle)" and an empty finding list, the displayed clean artifact
    keeps that text while the copied and downloaded versions lose it. -/
theorem c10_export_strips_clean_content :
    clipboardText (generateCleanDocument "<Company Name> agrees to the terms.".data [])
        ≠ generateCleanDocument "<Company Name> agrees to the terms.".data []
    ∧ clipboardText (generateCleanDocument "<Company Name> agrees to the terms.".data [])
        = " agrees to the terms.".data
    ∧ downloadContent (generateCleanDocument "<Company Name> agrees to the terms.".data [])
        = " agrees to the terms.".data :=
  ⟨by decide, by decide, by decide⟩

/-- C2 counterexample: in "aabb" the string "ab" occurs verbatim exactly
    once, yet the clean document produced by a Remove finding for "ab"
    still contains "ab": deleting the matched span splices the leading
    "a" and trailing "b" into a fresh occurrence. -/
theorem c2_remove_can_leave_occurrence :
    countOcc "ab".data "aabb".data = 1
    ∧ generateCleanDocument "aabb".data
        [⟨"1".data, "n".data, "i".data, "ab".data, RecommendedAction.Remove,
          "".data, "w".data, RiskLevel.High⟩] = "ab".data
    ∧ containsSub "ab".data
        (generateCleanDocument "aabb".data
          [⟨"1".data, "n".data, "i".data, "ab".data, RecommendedAction.Remove,
            "".data, "w".data, RiskLevel.High⟩]) = true :=
  ⟨by decide, by decide, by decide⟩

/-- C2 (amended): for a text p ++ X ++ s where the case-insensitive scan
    first matches X at the junction (no match starts inside p), no match
    occurs in s, and — the condition the counterexample forces — no
    occurrence of X re-forms across the splice p ++ s, a single Remove
    finding for X yields the clean document p ++ s, which does not contain
    X as a substring. -/
theorem c2_remove_unique_occurrence
    (p X s idv nm iss sug why : List Char) (rl : RiskLevel)
    (hX : X ≠ [])
    (hskip : noStartIn X p (X ++ s) = true)
    (hs : containsCI X s = false)
    (hjoin : containsCI X (p ++ s) = false) :
    generateCleanDocument (p ++ X ++ s)
        [⟨idv, nm, iss, X, RecommendedAction.Remove, sug, why, rl⟩] = p ++ s
    ∧ containsSub X (p ++ s) = false := by
  obtain ⟨a, as, rfl⟩ : ∃ a as, X = a :: as := by
    cases X with
    | nil => exact absurd rfl hX
    | cons a as => exact ⟨a, as, rfl⟩
  constructor
  · rw [generateCleanDocument_single]
    simp only [changeOfClause]
    simp [applyCleanChange, truthy, optVal]
    show replaceStrFrom (a :: as) [] [] (p ++ ((a :: as) ++ s)) = p ++ s
    rw [replaceStrFrom_skip p [] _ hskip]
    simp only [List.nil_append]
    rw [replaceStrFrom_match p s (by simp) (ciStarts_self _) rfl]
    rw [replaceStrFrom_nomatch _ hs]
    simp [getSub]
  · cases hcs : containsSub (a :: as) (p ++ s) with
    | false => rfl
    | true =>
      have hci := containsSub_imp_containsCI hcs
      rw [hjoin] at hci
      exact Bool.noConfusion hci

theorem c2_remove_witness :
    generateCleanDocument ("xy ".data ++ "ab".data ++ " z".data)
        [⟨"1".data, "n".data, "i".data, "ab".data, RecommendedAction.Remove,
          "".data, "w".data, RiskLevel.High⟩]
      = "xy ".data ++ " z".data
    ∧ containsSub "ab".data ("xy ".data ++ " z".data) = false :=
  c2_remove_unique_occurrence "xy ".data "ab".data " z".data "1".data "n".data
    "i".data "".data "w".data RiskLevel.High
    (by decide) (by decide) (by decide) (by decide)

/-- C3 counterexample: with original text "x", X = "x" and Y = "$&y", the
    clean document is "xy" — the replacement string passes through the
    ECMAScript substitution rules, where dollar-ampersand denotes the
    matched text — not the verbatim "$&y" the claim requires for every Y. -/
theorem c3_dollar_replacement_not_verbatim :
    generateCleanDocument "x".data
        [⟨"1".data, "n".data, "i".data, "x".data, RecommendedAction.Amend,
          "$&y".data, "w".data, RiskLevel.High⟩] = "xy".data
    ∧ generateCleanDocument "x".data
        [⟨"1".data, "n".data, "i".data, "x".data, RecommendedAction.Amend,
          "$&y".data, "w".data, RiskLevel.High⟩] ≠ "$&y".data :=
  ⟨by decide, by decide⟩

/-- C3 (amended): for a text p ++ X ++ s where the case-insensitive scan
    first matches X at the junction and no match occurs in s, a single
    Amend finding replacing X by a nonempty Y that contains no ECMAScript
    substitution escape yields the clean document p ++ Y ++ s (Y inserted
    verbatim); in particular "The term is perpetual." with X =
    "is perpetual", Y = "is 5 years" yields "The term is 5 years.". -/
theorem c3_amend_replaces_occurrence
    (p X s Y idv nm iss why : List Char) (rl : RiskLevel)
    (hX : X ≠ []) (hY : Y ≠ [])
    (hskip : noStartIn X p (X ++ s) = true)
    (hs : containsCI X s = false)
    (hsub : noSubstSeq Y = true) :
    generateCleanDocument (p ++ X ++ s)
        [⟨idv, nm, iss, X, RecommendedAction.Amend, Y, why, rl⟩] = p ++ Y ++ s := by
  obtain ⟨a, as, rfl⟩ : ∃ a as, X = a :: as := by
    cases X with
    | nil => exact absurd rfl hX
    | cons a as => exact ⟨a, as, rfl⟩
  obtain ⟨b, bs, rfl⟩ : ∃ b bs, Y = b :: bs := by
    cases Y with
    | nil => exact absurd rfl hY
    | cons b bs => exact ⟨b, bs, rfl⟩
  rw [generateCleanDocument_single]
  simp only [changeOfClause]
  simp [applyCleanChange, truthy, optVal]
  show replaceStrFrom (a :: as) (b :: bs) [] (p ++ ((a :: as) ++ s))
      = p ++ ((b :: bs) ++ s)
  rw [replaceStrFrom_skip p [] _ hskip]
  simp only [List.nil_append]
  rw [replaceStrFrom_match p s (by simp) (ciStarts_self _) rfl]
  rw [getSub_eq_self _ _ _ hsub, replaceStrFrom_nomatch _ hs]

theorem c3_amend_witness :
    generateCleanDocument ("The term ".data ++ "is perpetual".data ++ ".".data)
        [⟨"1".data, "Term".data, "i".data, "is perpetual".data,
          RecommendedAction.Amend, "is 5 years".data, "w".data, RiskLevel.High⟩]
      = "The term ".data ++ "is 5 years".data ++ ".".data :=
  c3_amend_replaces_occurrence "The term ".data "is perpetual".data ".".data
    "is 5 years".data "1".data "Term".data "i".data "w".data RiskLevel.High
    (by decide) (by decide) (by decide) (by decide) (by decide)


/-- Unfolding of one redline iteration for a deletion change with
    nonempty original text. -/
theorem applyRedlineChange_deletion (w nm iss : List Char) (i : Nat)
    (a : Char) (as : List Char) :
    applyRedlineChange w ⟨ChangeType.deletion, some (a :: as), none, nm, i, iss⟩
      = replaceAllF (a :: as) (fun m => mkMarker delStyle iss m) w := by
  unfold applyRedlineChange
  rw [if_pos ⟨rfl, rfl⟩]
  rfl

/-- Unfolding of one redline iteration for a replacement change with
    nonempty original and new text. -/
theorem applyRedlineChange_replacement (w nm iss : List Char) (i : Nat)
    (a : Char) (as : List Char) (b : Char) (bs : List Char) :
    applyRedlineChange w
        ⟨ChangeType.replacement, some (a :: as), some (b :: bs), nm, i, iss⟩
      = replaceAllF (a :: as)
          (fun m => mkMarker delStyle ("Original: ".data ++ iss) m ++ " ".data
            ++ mkMarker insStyle ("Replacement: ".data ++ iss) (b :: bs)) w := by
  unfold applyRedlineChange
  rw [if_neg (fun h => ChangeType.noConfusion h.1), if_pos ⟨rfl, rfl, rfl⟩]
  rfl

set_option maxRecDepth 40000 in
/-- C1 counterexample: for original text "ab" and a single Remove finding
    for "b", stripping the annotation markers from the redline leaves the
    struck-through "b" in place, giving back "ab", while the clean
    document is "a" — so the stripped redline is not the clean document
    even for a batch with no Add change. -/
theorem c1_strip_redline_ne_clean :
    stripTags (generateRedlinedDocument "ab".data
        [⟨"1".data, "n".data, "i".data, "b".data, RecommendedAction.Remove,
          "".data, "w".data, RiskLevel.High⟩])
      ≠ generateCleanDocument "ab".data
        [⟨"1".data, "n".data, "i".data, "b".data, RecommendedAction.Remove,
          "".data, "w".data, RiskLevel.High⟩] := by
  decide

set_option maxRecDepth 40000 in
/-- C1 (amended): stripping the annotation markers from the redline
    artifact keeps the deletion-marked original text, so it is not the
    clean artifact.  What holds (for fields free of interfering angle
    brackets): for a single Remove change the stripped redline is exactly
    the original text; for a single Amend change it is the original text
    with every match m of X turned into m, a space and Y.  The two
    artifacts coincide only when no change produced a match. -/
theorem c1_strip_redline_characterization :
    (∀ (text idv nm iss cur sug why : List Char) (rl : RiskLevel),
      cur ≠ [] → '<' ∉ text → '>' ∉ iss →
      stripTags (generateRedlinedDocument text
          [⟨idv, nm, iss, cur, RecommendedAction.Remove, sug, why, rl⟩]) = text)
    ∧ (∀ (text idv nm iss cur sug why : List Char) (rl : RiskLevel),
      cur ≠ [] → sug ≠ [] → '<' ∉ text → '>' ∉ iss → '<' ∉ sug →
      stripTags (generateRedlinedDocument text
          [⟨idv, nm, iss, cur, RecommendedAction.Amend, sug, why, rl⟩])
        = replaceAllF cur (fun m => m ++ " ".data ++ sug) text) := by
  constructor
  · intro text idv nm iss cur sug why rl hcur htext hiss
    obtain ⟨a, as, rfl⟩ : ∃ a as, cur = a :: as := by
      cases cur with
      | nil => exact absurd rfl hcur
      | cons a as => exact ⟨a, as, rfl⟩
    rw [generateRedlinedDocument_single]
    simp only [changeOfClause]
    rw [applyRedlineChange_deletion]
    rw [stripTags_replaceAllF (fun m => mkMarker delStyle iss m) (fun m => m)
      text htext (fun m z hm => stripTags_marker z (by decide) hiss hm)]
    exact replaceAllF_id text.length text (Nat.le_refl _)
  · intro text idv nm iss cur sug why rl hcur hsug htext hiss hsugmem
    obtain ⟨a, as, rfl⟩ : ∃ a as, cur = a :: as := by
      cases cur with
      | nil => exact absurd rfl hcur
      | cons a as => exact ⟨a, as, rfl⟩
    obtain ⟨b, bs, rfl⟩ : ∃ b bs, sug = b :: bs := by
      cases sug with
      | nil => exact absurd rfl hsug
      | cons b bs => exact ⟨b, bs, rfl⟩
    rw [generateRedlinedDocument_single]
    simp only [changeOfClause]
    rw [applyRedlineChange_replacement]
    apply stripTags_replaceAllF _ _ text htext
    intro m z hm
    have hto : '>' ∉ ("Original: ".data ++ iss) := by
      intro hmem2
      rcases List.mem_append.mp hmem2 with h | h
      · exact absurd h (by decide)
      · exact hiss h
    have htr : '>' ∉ ("Replacement: ".data ++ iss) := by
      intro hmem2
      rcases List.mem_append.mp hmem2 with h | h
      · exact absurd h (by decide)
      · exact hiss h
    have h1 : mkMarker delStyle ("Original: ".data ++ iss) m ++ " ".data
          ++ mkMarker insStyle ("Replacement: ".data ++ iss) (b :: bs) ++ z
        = mkMarker delStyle ("Original: ".data ++ iss) m
          ++ (" ".data
            ++ (mkMarker insStyle ("Replacement: ".data ++ iss) (b :: bs) ++ z)) := by
      simp [List.append_assoc]
    rw [h1, stripTags_marker _ (by decide) hto hm,
      stripTags_append_no_lt _ (by decide),
      stripTags_marker _ (by decide) htr hsugmem]
    simp [List.append_assoc]

set_option maxRecDepth 40000 in
theorem c1_strip_redline_witness :
    stripTags (generateRedlinedDocument "ab".data
        [⟨"1".data, "n".data, "i".data, "b".data, RecommendedAction.Remove,
          "".data, "w".data, RiskLevel.High⟩]) = "ab".data :=
  c1_strip_redline_characterization.1 "ab".data "1".data "n".data "i".data
    "b".data "".data "w".data RiskLevel.High (by decide) (by decide) (by decide)
